import Mathlib

/-!
Verification of the gitconfig single-file store (gopasspw/gitconfig).

The Go sources are shallowly embedded over `Str := List Char`.  Each
definition mirrors one function of `config.go` / `utils.go`; Go `strings`
primitives are re-implemented over lists (ASCII semantics, which covers
every input appearing in the claims).  External collaborators (file
system, environment, the glob library) are passed in as explicit
parameters.
-/

namespace GitConf

/-- Strings are modelled as lists of characters. -/
abbrev Str := List Char

/-- ASCII model of Go `unicode.IsSpace` (space classes used by TrimSpace). -/
def isSpaceChar (c : Char) : Bool :=
  c = ' ' || c = '\t' || c = '\n' || c = '\x0b' || c = '\x0c' || c = '\r'

/-- Go `strings.TrimSpace`, left part. -/
def trimLeft (s : Str) : Str := s.dropWhile isSpaceChar

/-- Go `strings.TrimSpace`, right part. -/
def trimRight (s : Str) : Str := (s.reverse.dropWhile isSpaceChar).reverse

/-- Go `strings.TrimSpace`. -/
def goTrimSpace (s : Str) : Str := trimRight (trimLeft s)

/-- Go `strings.HasPrefix s p` (argument order: pattern first here). -/
def startsWith (p s : Str) : Bool := p.isPrefixOf s

/-- Go `strings.HasSuffix s p` (argument order: pattern first here). -/
def endsWithS (p s : Str) : Bool := p.reverse.isPrefixOf s.reverse

/-- Go `strings.Cut(s, sep)` for a single-character separator: split at the
first occurrence, returning `none` when the separator does not occur. -/
def cutChar (sep : Char) : Str → Option (Str × Str)
  | [] => none
  | c :: rest =>
    if c = sep then some ([], rest)
    else (cutChar sep rest).map (fun p => (c :: p.1, p.2))

/-- Go `strings.Contains s pat` (pattern first here). -/
def containsSub (pat : Str) : Str → Bool
  | [] => pat.isPrefixOf []
  | c :: rest => pat.isPrefixOf (c :: rest) || containsSub pat rest

/-- ASCII lower-casing of one character, as Go `strings.ToLower` does on
ASCII input. -/
def lowerChar (c : Char) : Char :=
  if 'A' ≤ c ∧ c ≤ 'Z' then Char.ofNat (c.toNat + 32) else c

/-- Go `strings.ToLower` (ASCII model). -/
def goToLower (s : Str) : Str := s.map lowerChar

/-- Go `strings.EqualFold` (ASCII model). -/
def eqFold (a b : Str) : Bool := goToLower a == goToLower b

/-- Go `strings.TrimSuffix s [c]`: drop one trailing occurrence. -/
def trimOneSuffix (c : Char) (s : Str) : Str :=
  if s.getLast? = some c then s.dropLast else s

/-- Go `strings.TrimPrefix s [c]`: drop one leading occurrence. -/
def trimOneLead (c : Char) (s : Str) : Str :=
  match s with
  | [] => []
  | x :: rest => if x = c then rest else x :: rest

/-- Go `strings.Trim s cutset`: strip every leading and trailing character
belonging to `cutset`. -/
def trimCutset (cutset : List Char) (s : Str) : Str :=
  ((s.dropWhile (cutset.contains ·)).reverse.dropWhile (cutset.contains ·)).reverse

/-- Replace every non-overlapping occurrence of the two-character pattern
`x y` by the single character `r` (one pass of Go `strings.ReplaceAll` for
the escape patterns, which are all two characters wide). -/
def replacePair (x y r : Char) : Str → Str
  | [] => []
  | [c] => [c]
  | c1 :: c2 :: rest =>
    if c1 = x ∧ c2 = y then r :: replacePair x y r rest
    else c1 :: replacePair x y r (c2 :: rest)

/-- Split on a character, keeping empty segments (like Go
`strings.Split` on a one-character separator). -/
def splitOnCh (sep : Char) : Str → List Str
  | [] => [[]]
  | c :: rest =>
    if c = sep then [] :: splitOnCh sep rest
    else
      match splitOnCh sep rest with
      | [] => [[c]]
      | l :: ls => (c :: l) :: ls

/-- Go `strings.Join(lines, sep)` for a one-character separator. -/
def joinCh (sep : Char) : List Str → Str
  | [] => []
  | [l] => l
  | l :: ls => l ++ sep :: joinCh sep ls

/-- One scanned line of `bufio.Scanner` with `ScanLines` drops a trailing
carriage return. -/
def dropCR (l : Str) : Str :=
  if l.getLast? = some '\r' then l.dropLast else l

/-- The list of lines produced by `bufio.Scanner` with `ScanLines`:
split on newline, drop a final empty segment, strip trailing `\r`. -/
def scanLines (s : Str) : List Str :=
  match splitOnCh '\n' s with
  | [[]] => []
  | ps => (if ps.getLast? = some [] then ps.dropLast else ps).map dropCR

/-- Go `strings.Index(s, ".")` (as an integer, -1 when absent). -/
def goIndexOfCh (c : Char) (s : Str) : Int :=
  match s.findIdx? (· = c) with
  | some i => (i : Int)
  | none => -1

/-- Go `strings.LastIndex(s, ".")` for a one-character pattern. -/
def goLastIndexOfCh (c : Char) (s : Str) : Int :=
  match s.reverse.findIdx? (· = c) with
  | some i => (s.length : Int) - 1 - (i : Int)
  | none => -1

/-- Mirrors `splitKey` of utils.go: split a fully qualified key into
section, subsection (possibly empty) and key, cutting at the first and
last dot. -/
def splitKey (key : Str) : Str × Str × Str :=
  let n := goIndexOfCh '.' key
  let sec := if n > 0 then key.take n.toNat else []
  let m := goLastIndexOfCh '.' key
  if n ≠ m ∧ m > 0 ∧ (key.length : Int) > m + 1 then
    (sec, (key.take m.toNat).drop (n + 1).toNat, key.drop (m + 1).toNat)
  else
    (sec, [], key.drop (n + 1).toNat)

/-- Mirrors `canonicalizeKey` of utils.go: lower-case section and key,
keep the subsection as written; empty result on invalid keys. -/
def canonicalizeKey (key : Str) : Str :=
  if key = [] then []
  else
    let p := splitKey key
    let sec := goToLower p.1
    let sub := p.2.1
    let sk := goToLower p.2.2
    if sec = [] ∨ sk = [] then []
    else if sub = [] then sec ++ '.' :: sk
    else sec ++ '.' :: (sub ++ '.' :: sk)

/-- The key pattern of config.go (`reValidKey`): starts with a lower-case
letter, continues with lower-case letters, digits or hyphens. -/
def validKey (k : Str) : Bool :=
  match k with
  | [] => false
  | c :: rest =>
    ('a' ≤ c && c ≤ 'z') &&
      rest.all (fun d => ('a' ≤ d && d ≤ 'z') || ('0' ≤ d && d ≤ '9') || d = '-')

/-- Mirrors `parseSectionHeader` of config.go.  Returns
(section, subsection, skip). -/
def parseSectionHeader (line : Str) : Str × Str × Bool :=
  let l := trimCutset ['[', ']'] line
  if l = [] then ([], [], true)
  else
    let wsp := goIndexOfCh ' ' l
    if wsp < 0 then (l, [], false)
    else
      let sec := l.take wsp.toNat
      let sub := l.drop (wsp.toNat + 1)
      let sub := sub.filter (· ≠ '\\')
      let sub := trimOneLead '"' sub
      let sub := trimOneSuffix '"' sub
      (sec, sub, false)

/-- Split at the first comment character, `strings.IndexAny(v, "#;")`
style: before, the delimiter itself, and after. -/
def splitAtCommentCh : Str → Option (Str × Char × Str)
  | [] => none
  | c :: rest =>
    if c = '#' ∨ c = ';' then some ([], c, rest)
    else (splitAtCommentCh rest).map (fun t => (c :: t.1, t.2.1, t.2.2))

/-- The regular expression `reQuotedComment` of config.go matches when
some double-quoted span (a segment strictly between two quotes) contains
a comment character. -/
def quotedCommentMatch (s : Str) : Bool :=
  (((splitOnCh '"' s).drop 1).dropLast).any
    (fun seg => seg.any (fun c => c = '#' || c = ';'))

/-- The quote-aware scan of `parseLineForComment` (utils.go): walk
characters toggling an inside-quotes flag, returning the split at the
first unquoted comment character (the delimiter itself is dropped). -/
def scanUnquoted (inQ : Bool) : Str → Option (Str × Str)
  | [] => none
  | c :: rest =>
    if c = '"' then (scanUnquoted (!inQ) rest).map (fun p => (c :: p.1, p.2))
    else if (c = '#' ∨ c = ';') ∧ ¬inQ then some ([], rest)
    else (scanUnquoted inQ rest).map (fun p => (c :: p.1, p.2))

/-- Mirrors `parseLineForComment` of utils.go. -/
def parseLineForComment (line0 : Str) : Str × Str :=
  let line := goTrimSpace line0
  if ¬ startsWith ['"'] line then
    match cutChar '#' line with
    | some p => (goTrimSpace p.1, goTrimSpace p.2)
    | none =>
      match cutChar ';' line with
      | some p => (goTrimSpace p.1, goTrimSpace p.2)
      | none => (line, [])
  else
    match scanUnquoted false line with
    | some p => (trimCutset ['"'] (goTrimSpace p.1), goTrimSpace p.2)
    | none => (trimCutset ['"'] (goTrimSpace line), [])

/-- Mirrors `splitValueComment` of config.go. -/
def splitValueComment (rValue : Str) : Str × Str :=
  if ¬ rValue.any (fun c => c = '#' || c = ';') then
    (trimCutset ['"'] rValue, [])
  else if ¬ quotedCommentMatch rValue then
    match splitAtCommentCh rValue with
    | some (before, d, after) =>
      (trimCutset ['"'] (goTrimSpace before), ' ' :: d :: after)
    | none => (rValue, [])
  else
    parseLineForComment rValue

/-- Mirrors `unescapeValue` of config.go: five sequential ReplaceAll
passes over the two-character escape patterns. -/
def unescapeValue (v : Str) : Str :=
  let v := replacePair '\\' '\\' '\\' v
  let v := replacePair '\\' '"' '"' v
  let v := replacePair '\\' 'n' '\n' v
  let v := replacePair '\\' 't' '\t' v
  replacePair '\\' 'b' '\x08' v

/-- Mirrors `formatKeyValue` of config.go (templates `keyValueTpl` and
`keyTpl`). -/
def formatKeyValue (key value comment : Str) : Str :=
  if goTrimSpace value = [] then '\t' :: (key ++ comment)
  else '\t' :: (key ++ ' ' :: '=' :: ' ' :: (value ++ comment))

/-- The `vars` map of a Config, as an association list with unique keys
(Go map; iteration order of the model is insertion order). -/
abbrev Vars := List (Str × List Str)

/-- Map lookup. -/
def varsGet : Vars → Str → Option (List Str)
  | [], _ => none
  | (k1, v1) :: rest, k => if k1 = k then some v1 else varsGet rest k

/-- Map update or insert. -/
def varsSet : Vars → Str → List Str → Vars
  | [], k, vs => [(k, vs)]
  | (k1, v1) :: rest, k, vs =>
    if k1 = k then (k, vs) :: rest else (k1, v1) :: varsSet rest k vs

/-- `c.vars[fk] = append(c.vars[fk], v)`. -/
def varsAppendVal : Vars → Str → Str → Vars
  | [], k, v => [(k, [v])]
  | (k1, v1) :: rest, k, v =>
    if k1 = k then (k1, v1 ++ [v]) :: rest else (k1, v1) :: varsAppendVal rest k v

/-- Map deletion. -/
def varsDelete : Vars → Str → Vars
  | [], _ => []
  | (k1, v1) :: rest, k =>
    if k1 = k then rest else (k1, v1) :: varsDelete rest k

/-- The `Config` struct of config.go.  `raw` is the text buffer
(`strings.Builder` content); the file path and the branch hint are plain
strings; disk flushing is an external effect and is not part of the
state transition. -/
structure Config where
  path : Str
  readonly : Bool
  noWrites : Bool
  raw : Str
  vars : Vars
  branch : Str
deriving DecidableEq, Repr

/-- State threaded through `parseConfig` of config.go: current section
and subsection, the accumulated output lines, and the visitor state. -/
structure PCtx (σ : Type) where
  sec : Str
  sub : Str
  lines : List Str
  st : σ

/-- The visitor (`parseFunc`): receives state, fully qualified key,
serialization key, value, comment and the original line; returns new
state, the replacement line and the skip flag. -/
abbrev Visitor (σ : Type) := σ → Str → Str → Str → Str → Str → σ × Str × Bool

/-- The key-value split of one trimmed line in `parseConfig`: cut at the
first equals sign, with the bare-boolean fallback for non-header,
non-blank lines. -/
def lineKV (hdr : Bool) (line : Str) : Option (Str × Str) :=
  match cutChar '=' line with
  | some p => some p
  | none =>
    if ¬ hdr ∧ goTrimSpace line ≠ [] then some (line, []) else none

/-- The data `parseConfig` extracts from one key-value line. -/
structure LineInfo where
  okKey : Str
  k : Str
  oV : Str
  comment : Str
deriving DecidableEq

/-- The pure per-line extraction of `parseConfig`: trim key and value,
lower-case the key, reject invalid keys, split off the trailing comment
and unescape the value (`CompatMode` is false). -/
def lineInfo (hdr : Bool) (line : Str) : Option LineInfo :=
  match lineKV hdr line with
  | none => none
  | some (k0, v0) =>
    let k1 := goTrimSpace k0
    let k := goToLower k1
    if ¬ validKey k then none
    else
      let vc := splitValueComment (goTrimSpace v0)
      some ⟨k1, k, unescapeValue vc.1, vc.2⟩

/-- One iteration of the scanner loop in `parseConfig` of config.go. -/
def parseLine (key value wSec wSub wKey : Str) (cb : Visitor σ)
    (ctx : PCtx σ) (fullLine : Str) : PCtx σ :=
  let lines1 := ctx.lines ++ [fullLine]
  let line := goTrimSpace fullLine
  if startsWith ['#'] line then ⟨ctx.sec, ctx.sub, lines1, ctx.st⟩
  else if startsWith [';'] line then ⟨ctx.sec, ctx.sub, lines1, ctx.st⟩
  else
    let hdr := startsWith ['['] line
    let ph := parseSectionHeader line
    if hdr ∧ ph.2.2 then ⟨ctx.sec, ctx.sub, lines1, ctx.st⟩
    else
      let sec := if hdr then ph.1 else ctx.sec
      let sub := if hdr then ph.2.1 else ctx.sub
      if key ≠ [] ∧ (sec ≠ wSec ∧ sub ≠ wSub) then ⟨sec, sub, lines1, ctx.st⟩
      else
        match lineInfo hdr line with
        | none => ⟨sec, sub, lines1, ctx.st⟩
        | some info =>
          let fKey := sec ++ '.' :: (if sub ≠ [] then sub ++ '.' :: info.k else info.k)
          let skn := if key = [] then info.okKey else wKey
          if key ≠ [] ∧ key ≠ fKey then ⟨sec, sub, lines1, ctx.st⟩
          else
            let oV2 := if key ≠ [] then value else info.oV
            let r := cb ctx.st fKey skn oV2 info.comment fullLine
            if r.2.2 then ⟨sec, sub, ctx.lines, r.1⟩
            else ⟨sec, sub, ctx.lines ++ [r.2.1], r.1⟩

/-- Mirrors `parseConfig` of config.go: scan all lines, returning the
output lines and the final visitor state. -/
def parseConfigRun (inp key value : Str) (cb : Visitor σ) (s0 : σ) :
    List Str × σ :=
  let w := splitKey key
  let ctx := (scanLines inp).foldl
    (parseLine key value w.1 w.2.1 w.2.2 cb) ⟨[], [], [], s0⟩
  (ctx.lines, ctx.st)

/-- The visitor used by `ParseConfig`: canonicalize the key, append the
value to the map, emit the canonical key-value line. -/
def loadVisitor : Visitor Vars :=
  fun vars fk skn v comment _ =>
    (varsAppendVal vars (canonicalizeKey fk) v, formatKeyValue skn v comment, false)

/-- Mirrors `ParseConfig` of config.go. -/
def goParseConfig (inp : Str) : Config :=
  let r := parseConfigRun inp [] [] loadVisitor []
  { path := [], readonly := false, noWrites := false,
    raw := joinCh '\n' r.1 ++ ['\n'], vars := r.2, branch := [] }

/-- Mirrors `Config.Get`. -/
def goGet (c : Config) (key : Str) : Str × Bool :=
  match varsGet c.vars (canonicalizeKey key) with
  | some (v :: _) => (v, true)
  | _ => ([], false)

/-- Mirrors `Config.GetAll` (`none` plays the role of `found = false`). -/
def goGetAll (c : Config) (key : Str) : Option (List Str) :=
  varsGet c.vars (canonicalizeKey key)

/-- Mirrors `Config.IsSet`. -/
def goIsSet (c : Config) (key : Str) : Bool :=
  (varsGet c.vars (canonicalizeKey key)).isSome

/-- Mirrors `Config.rewriteRaw`: reparse the raw buffer in targeted mode
and replace it (disk flushing is external). -/
def rewriteRaw (c : Config) (key value : Str) (cb : Visitor σ) (s0 : σ) :
    Config :=
  let lines := (parseConfigRun c.raw key value cb s0).1
  { c with raw := joinCh '\n' lines ++ ['\n'] }

/-- The update visitor of `Config.Set`: rewrite the first matching line,
keep later ones verbatim. -/
def setVisitor : Visitor Bool :=
  fun updated _ skn v comment line =>
    if updated then (true, line, false)
    else (true, formatKeyValue skn v comment, false)

/-- The deletion visitor of `Config.Unset`: drop every matching line. -/
def unsetVisitor : Visitor Unit :=
  fun _ _ _ _ _ _ => ((), [], true)

/-- Mirrors the scanner loop state of `Config.insertValue`. -/
structure InsCtx where
  lines : List Str
  sec : Str
  sub : Str
  written : Bool

/-- One iteration of the `insertValue` loop (note: unlike `parseConfig`,
the raw line is not trimmed before the prefix tests). -/
def insertStep (wSec wSub wKey value : Str) (st : InsCtx) (line : Str) :
    InsCtx :=
  let lines1 := st.lines ++ [line]
  if st.written then ⟨lines1, st.sec, st.sub, true⟩
  else if startsWith ['#'] line then ⟨lines1, st.sec, st.sub, false⟩
  else if startsWith [';'] line then ⟨lines1, st.sec, st.sub, false⟩
  else
    let hdr := startsWith ['['] line
    let ph := parseSectionHeader line
    if hdr ∧ ph.2.2 then ⟨lines1, st.sec, st.sub, false⟩
    else
      let sec := if hdr then ph.1 else st.sec
      let sub := if hdr then ph.2.1 else st.sub
      if sec = wSec ∧ sub = wSub then
        ⟨lines1 ++ [formatKeyValue wKey value []], sec, sub, true⟩
      else ⟨lines1, sec, sub, false⟩

/-- The brand-new section header emitted by `insertValue` when no
existing block matches. -/
def sectHeaderLine (wSec wSub : Str) : Str :=
  if wSub ≠ [] then '[' :: (wSec ++ ' ' :: '"' :: (wSub ++ ['"', ']']))
  else '[' :: (wSec ++ [']'])

/-- Mirrors `Config.insertValue`. -/
def goInsertValue (c : Config) (key value : Str) : Config :=
  let w := splitKey key
  let st := (scanLines c.raw).foldl (insertStep w.1 w.2.1 w.2.2 value)
    ⟨[], [], [], false⟩
  let lines :=
    if st.written then st.lines
    else st.lines ++ [sectHeaderLine w.1 w.2.1, formatKeyValue w.2.2 value []]
  { c with raw := joinCh '\n' lines ++ ['\n'] }

/-- Mirrors `Config.Set`; `none` models the invalid-key error.  Note that
the source indexes `vars` by the raw key here, not the canonical one. -/
def goSet (c : Config) (key value : Str) : Option Config :=
  let w := splitKey key
  if w.1 = [] ∨ w.2.2 = [] then none
  else if c.readonly then some c
  else
    let hit := varsGet c.vars key
    if (match hit with
        | some vs => vs.contains value
        | none => false) then some c
    else
      match hit with
      | some vs =>
        let c1 := { c with vars := varsSet c.vars key (vs.set 0 value) }
        some (rewriteRaw c1 key value setVisitor false)
      | none =>
        let c1 := { c with vars := varsSet c.vars key [value] }
        some (goInsertValue c1 key value)

/-- Mirrors `Config.Unset` (readonly configs and missing keys are
no-ops; flushing is external, so no error can occur). -/
def goUnset (c : Config) (key : Str) : Config :=
  if c.readonly then c
  else
    let k := canonicalizeKey key
    match varsGet c.vars k with
    | none => c
    | some _ => rewriteRaw { c with vars := varsDelete c.vars k } k [] unsetVisitor ()

/-- Mirrors `prefixMatch(path, prefix, fold)` of config.go: false unless
the second argument ends in a slash, otherwise test whether the first
argument starts with the second (case-folded when `fold`). -/
def prefMatchGo (p pfx : Str) (fold : Bool) : Bool :=
  if ¬ endsWithS ['/'] pfx then false
  else if fold then startsWith (goToLower pfx) (goToLower p)
  else startsWith pfx p

/-- Mirrors `matchSubSection` of config.go.  The glob matcher of the
external gobwas/glob dependency is passed in (`false` also covers its
compile-error path, which the source maps to a non-match).  `none`
models the runtime panic: for a condition starting with `gitdir` but
containing no colon, `strings.SplitN(subsec, ":", 2)` has one element
and the source indexes element 1 out of range. -/
def matchSubSection (glob : Str → Str → Bool) (subsec workdir branch : Str) :
    Option Bool :=
  if startsWith ('g' :: 'i' :: 't' :: 'd' :: 'i' :: 'r' :: []) subsec then
    let ci := containsSub ('/' :: 'i' :: ':' :: []) subsec
    match cutChar ':' subsec with
    | none => none
    | some p =>
      let dir := p.2
      let exactMatch :=
        if ci then eqFold (trimOneSuffix '/' workdir) (trimOneSuffix '/' dir)
        else trimOneSuffix '/' workdir == trimOneSuffix '/' dir
      some (exactMatch || prefMatchGo dir workdir ci)
  else if startsWith ('o' :: 'n' :: 'b' :: 'r' :: 'a' :: 'n' :: 'c' :: 'h' :: ':' :: []) subsec then
    match cutChar ':' subsec with
    | none => none
    | some p =>
      if branch = [] then some false else some (glob p.2 branch)
  else some false

/-- Mirrors `filterCandidates` of config.go; `none` propagates the
panic of `matchSubSection`. -/
def filterCandidates (glob : Str → Str → Bool) (workdir branch : Str) :
    List Str → Option (List Str)
  | [] => some []
  | cand :: rest =>
    let w := splitKey cand
    if w.1 = ('i' :: 'n' :: 'c' :: 'l' :: 'u' :: 'd' :: 'e' :: 'i' :: 'f' :: [])
        ∧ w.2.1 ≠ [] ∧ w.2.2 = ('p' :: 'a' :: 't' :: 'h' :: []) then
      match matchSubSection glob w.2.1 workdir branch with
      | none => none
      | some true => (filterCandidates glob workdir branch rest).map (cand :: ·)
      | some false => filterCandidates glob workdir branch rest
    else filterCandidates glob workdir branch rest

/-- Mirrors `getConditionalIncludes` of config.go (the Go map iteration
order is unspecified; the model iterates in insertion order). -/
def getConditionalIncludes (glob : Str → Str → Bool) (c : Config)
    (workdir : Str) : Option (List Str) :=
  let cands := (c.vars.map Prod.fst).filter
    (fun k => startsWith ('i' :: 'n' :: 'c' :: 'l' :: 'u' :: 'd' :: 'e' :: 'i' :: 'f' :: '.' :: []) k
      && endsWithS ('.' :: 'p' :: 'a' :: 't' :: 'h' :: []) k)
  match filterCandidates glob workdir c.branch cands with
  | none => none
  | some ks =>
    some (ks.foldl (fun acc k =>
      match goGetAll c k with
      | some ps => acc ++ ps
      | none => acc) [])

/-- Mirrors `getEffectiveIncludes` of config.go. -/
def getEffectiveIncludes (glob : Str → Str → Bool) (c : Config)
    (workdir : Str) : Option (List Str × Bool) :=
  let base := goGetAll c ('i' :: 'n' :: 'c' :: 'l' :: 'u' :: 'd' :: 'e' :: '.' :: 'p' :: 'a' :: 't' :: 'h' :: [])
  let ip := match base with | some vs => (vs, true) | none => ([], false)
  match getConditionalIncludes glob c workdir with
  | none => none
  | some cs =>
    if 0 < cs.length then some (ip.1 ++ cs, true) else some ip

/-- Lexical model of Go `path.Clean`. -/
def cleanPath (p : Str) : Str :=
  if p = [] then ['.']
  else
    let rooted := p.head? = some '/'
    let comps := (splitOnCh '/' p).filter (fun c => c ≠ [] ∧ c ≠ ['.'])
    let out := comps.foldl (fun acc c =>
      if c = ['.', '.'] then
        match acc with
        | [] => if rooted then [] else [c]
        | prev :: rest => if prev = ['.', '.'] then c :: acc else rest
      else c :: acc) []
    let parts := out.reverse
    if parts = [] then (if rooted then ['/'] else ['.'])
    else (if rooted then ['/'] else []) ++ joinCh '/' parts

/-- Go `path.Dir`. -/
def pathDir (p : Str) : Str :=
  cleanPath (p.take (goLastIndexOfCh '/' p + 1).toNat)

/-- Go `path.Join` of two elements. -/
def pathJoin2 (a b : Str) : Str :=
  if a = [] ∧ b = [] then []
  else if a = [] then cleanPath b
  else if b = [] then cleanPath a
  else cleanPath (a ++ '/' :: b)

/-- Go `strings.Replace(s, pat, [], 1)` for the two-character pattern
`~/`: remove the first occurrence. -/
def dropFirstTildeSlash : Str → Str
  | [] => []
  | [c] => [c]
  | c1 :: c2 :: rest =>
    if c1 = '~' ∧ c2 = '/' then rest
    else c1 :: dropFirstTildeSlash (c2 :: rest)

/-- Mirrors `getPathsForNestedConfig` of config.go; the HOME environment
variable is passed in. -/
def getPathsForNestedConfig (home : Option Str) (ncs : List Str)
    (baseConfig : Str) : List Str :=
  ncs.foldl (fun acc nc =>
    if nc.head? = some '/' then acc ++ [nc]
    else if startsWith ('~' :: '/' :: []) nc then
      match home with
      | none => acc
      | some h => acc ++ [pathJoin2 h (dropFirstTildeSlash nc)]
    else acc ++ [cleanPath (pathJoin2 (pathDir baseConfig) nc)]) []

/-- Mirrors `mergeConfigs` of config.go: keep the base raw buffer and
metadata, append the extension values per key (the zero-valued branch
field of the struct literal resets the branch hint). -/
def mergeConfigs (base ext : Config) : Config :=
  { path := base.path, readonly := base.readonly, noWrites := base.noWrites,
    raw := base.raw,
    vars := ext.vars.foldl (fun vars p =>
      match varsGet vars p.1 with
      | some vs => varsSet vars p.1 (vs ++ p.2)
      | none => vars ++ [(p.1, [] ++ p.2)]) base.vars,
    branch := [] }

/-- The external world of the include resolver: a file system (path to
content), the HOME variable, the branch detector (`readGitBranch` does
file I/O) and the external glob matcher. -/
structure World where
  fs : List (Str × Str)
  home : Option Str
  branchOf : Str → Str
  glob : Str → Str → Bool

/-- File-system lookup. -/
def fsGet : List (Str × Str) → Str → Option Str
  | [], _ => none
  | (p, c) :: rest, q => if p = q then some c else fsGet rest q

/-- Mirrors `loadConfig` of config.go: open and parse one file. -/
def loadOneConfig (w : World) (fn : Str) : Option Config :=
  (fsGet w.fs fn).map (fun content => { goParseConfig content with path := fn })

/-- Result of a load: distinguishes running out of fuel (the model
artifact), a file-open error, the conditional-include panic, and
success carrying the aggregate and the list of merged include paths in
merge order. -/
inductive LoadResult where
  | outOfFuel : LoadResult
  | ioErr : LoadResult
  | panicked : LoadResult
  | ok : Config → List Str → LoadResult
deriving DecidableEq, Repr

/-- The work-queue loop of `loadConfigs` (config.go): pop a path, skip
it when already visited, otherwise load, merge, mark visited and
enqueue its own effective includes.  Structural recursion on fuel. -/
def loadLoop (w : World) (workdir : Str) :
    Nat → List Str → List Str → Config → List Str → LoadResult
  | 0, _, _, _, _ => .outOfFuel
  | _ + 1, _, [], acc, log => .ok acc log
  | fuel + 1, visited, head :: rest, acc, log =>
    if visited.contains head then loadLoop w workdir fuel visited rest acc log
    else
      match loadOneConfig w head with
      | none => .ioErr
      | some nc =>
        let acc1 := mergeConfigs acc nc
        match getEffectiveIncludes w.glob nc workdir with
        | none => .panicked
        | some incs =>
          let newPaths :=
            if incs.2 then getPathsForNestedConfig w.home incs.1 nc.path else []
          loadLoop w workdir fuel (head :: visited) (rest ++ newPaths) acc1
            (log ++ [head])

/-- Mirrors `loadConfigs` of config.go (entry point of LoadConfig and
LoadConfigWithWorkdir). -/
def loadConfigs (w : World) (fn workdir : Str) (fuel : Nat) : LoadResult :=
  match loadOneConfig w fn with
  | none => .ioErr
  | some c0 =>
    let c1 := { c0 with branch := w.branchOf workdir }
    match getEffectiveIncludes w.glob c1 workdir with
    | none => .panicked
    | some incs =>
      let queue :=
        if incs.2 then getPathsForNestedConfig w.home incs.1 c1.path else []
      loadLoop w workdir fuel [fn] queue c1 []

/-- Go `strconv.Atoi` (unbounded model). -/
def goAtoi (s : Str) : Option Int :=
  let digits : Str → Option Nat := fun d =>
    if d ≠ [] ∧ d.all (fun c => '0' ≤ c && c ≤ '9') then
      some (d.foldl (fun n c => n * 10 + (c.toNat - '0'.toNat)) 0)
    else none
  match s with
  | '+' :: r => (digits r).map Int.ofNat
  | '-' :: r => (digits r).map (fun n => -(n : Int))
  | _ => (digits s).map Int.ofNat

/-- Decimal rendering of a loop index (`fmt.Sprintf` with a `%d` verb). -/
def natStr (n : Nat) : Str := Nat.toDigits 10 n

/-- The loop of `LoadConfigFromEnv`: read KEY/VALUE pairs for indices
`i, i+1, ...`; `none` models the abort path returning a fresh empty
config. -/
def envLoop (env : Str → Option Str) (pfx : Str) :
    Nat → Nat → Vars → Option Vars
  | 0, _, acc => some acc
  | rem + 1, i, acc =>
    let key := (env (pfx ++ ('_' :: 'K' :: 'E' :: 'Y' :: '_' :: []) ++ natStr i)).getD []
    match env (pfx ++ ('_' :: 'V' :: 'A' :: 'L' :: 'U' :: 'E' :: '_' :: []) ++ natStr i) with
    | none => none
    | some v =>
      if key = [] then none
      else envLoop env pfx rem (i + 1) (varsAppendVal acc key v)

/-- Mirrors `LoadConfigFromEnv` of config.go; the environment is passed
in as a partial map (`os.Getenv` of an unset variable is empty). -/
def loadConfigFromEnv (env : Str → Option Str) (pfx : Str) : Config :=
  let emptyC : Config :=
    { path := [], readonly := false, noWrites := true, raw := [], vars := [],
      branch := [] }
  match goAtoi ((env (pfx ++ ('_' :: 'C' :: 'O' :: 'U' :: 'N' :: 'T' :: []))).getD []) with
  | none => emptyC
  | some n =>
    if n < 1 then emptyC
    else
      match envLoop env pfx n.toNat 0 [] with
      | none => emptyC
      | some vars => { emptyC with vars := vars }

/-- Mirrors `NewFromMap` of config.go (a read-only preset config). -/
def goNewFromMap (data : List (Str × Str)) : Config :=
  { path := [], readonly := true, noWrites := false, raw := [],
    vars := data.map (fun p => (p.1, [p.2])), branch := [] }

/-- The per-line output of the load-mode visitor (what `parseConfig`
with an empty target key turns one raw line into); in load mode it does
not depend on the section state. -/
def loadLineOut (fullLine : Str) : Str :=
  let line := goTrimSpace fullLine
  if startsWith ['#'] line then fullLine
  else if startsWith [';'] line then fullLine
  else
    let hdr := startsWith ['['] line
    let ph := parseSectionHeader line
    if hdr ∧ ph.2.2 then fullLine
    else
      match lineInfo hdr line with
      | none => fullLine
      | some info => formatKeyValue info.okKey info.oV info.comment

/-- Values drawn from lower-case letters and digits: no whitespace,
comment characters, quotes, escapes or separators, so the parser passes
them through untouched. -/
def CleanVal (s : Str) : Prop :=
  s ≠ [] ∧ ∀ c ∈ s, (97 ≤ c.toNat ∧ c.toNat ≤ 122) ∨ (48 ≤ c.toNat ∧ c.toNat ≤ 57)

/-- The key-value line shape used by the multi-value claims. -/
def kvLine (v : Str) : Str := 'k' :: ' ' :: '=' :: ' ' :: v

/-- The canonical serialized form of such a line. -/
def tabLine (v : Str) : Str := '\t' :: 'k' :: ' ' :: '=' :: ' ' :: v

instance (s : Str) : Decidable (CleanVal s) := by
  unfold CleanVal; infer_instance

/-- A three-occurrence input for the multi-value claims: the key
`core.k` appears with values `a`, `b`, `c` in this order. -/
def inputThree (a b c : Str) : Str :=
  ('[' :: 'c' :: 'o' :: 'r' :: 'e' :: ']' :: '\n' :: 'k' :: ' ' :: '=' :: ' ' :: []) ++ a ++
  ('\n' :: 'k' :: ' ' :: '=' :: ' ' :: []) ++ b ++
  ('\n' :: 'k' :: ' ' :: '=' :: ' ' :: []) ++ c ++ ['\n']

/-- Every key of the map carries a non-empty value sequence. -/
def VarsWF (vars : Vars) : Prop := ∀ p ∈ vars, p.2 ≠ []

/-- The number of include paths contributed by one file-system entry
when it is loaded as a nested config (branch hint empty, as in
`loadConfig`). -/
def incCount (w : World) (workdir : Str) (entry : Str × Str) : Nat :=
  let nc : Config := { goParseConfig entry.2 with path := entry.1 }
  match getEffectiveIncludes w.glob nc workdir with
  | none => 0
  | some incs =>
    if incs.2 then (getPathsForNestedConfig w.home incs.1 entry.1).length else 0

/-- Upper bound on the include paths any single file can enqueue. -/
def maxInc (w : World) (workdir : Str) : Nat :=
  w.fs.foldl (fun m e => max m (incCount w workdir e)) 0

/-- How many file-system paths have not been visited yet. -/
def unvisitedCount (w : World) (visited : List Str) : Nat :=
  ((w.fs.map Prod.fst).filter (fun p => ! visited.contains p)).length

/-- The initial work queue of `loadConfigs` (the root includes, with
the branch hint attached to the root config). -/
def initialQueue (w : World) (fn workdir : Str) : List Str :=
  match loadOneConfig w fn with
  | none => []
  | some c0 =>
    let c1 := { c0 with branch := w.branchOf workdir }
    match getEffectiveIncludes w.glob c1 workdir with
    | none => []
    | some incs =>
      if incs.2 then getPathsForNestedConfig w.home incs.1 c1.path else []

/-- Fuel that always suffices for `loadConfigs` to finish. -/
def fuelBound (w : World) (fn workdir : Str) : Nat :=
  (initialQueue w fn workdir).length +
    w.fs.length * (maxInc w workdir + 1) + 1

theorem splitOnCh_ne_nil (sep : Char) (s : Str) : splitOnCh sep s ≠ [] := by
  cases s with
  | nil => simp [splitOnCh]
  | cons c rest =>
    simp only [splitOnCh]
    split
    · simp
    · cases h : splitOnCh sep rest <;> simp

theorem joinCh_splitOnCh (sep : Char) (s : Str) :
    joinCh sep (splitOnCh sep s) = s := by
  induction s with
  | nil => simp [splitOnCh, joinCh]
  | cons c rest ih =>
    simp only [splitOnCh]
    split
    · rename_i hc
      subst hc
      cases h : splitOnCh c rest with
      | nil => exact absurd h (splitOnCh_ne_nil c rest)
      | cons l ls =>
        rw [h] at ih
        simp [joinCh, ← ih]
    · cases h : splitOnCh sep rest with
      | nil => exact absurd h (splitOnCh_ne_nil sep rest)
      | cons l ls =>
        rw [h] at ih
        cases ls with
        | nil => simp_all [joinCh]
        | cons l2 ls2 => simp_all [joinCh]

theorem splitOnCh_append_sep (sep : Char) (xs ys : Str) (hx : sep ∉ xs) :
    splitOnCh sep (xs ++ sep :: ys) = xs :: splitOnCh sep ys := by
  induction xs with
  | nil => simp [splitOnCh]
  | cons c rest ih =>
    have hc : c ≠ sep := by
      intro h; exact hx (h ▸ List.mem_cons_self c rest)
    have hrest : sep ∉ rest := fun h => hx (List.mem_cons_of_mem c h)
    simp only [List.cons_append, splitOnCh, if_neg hc]
    rw [show rest.append (sep :: ys) = rest ++ sep :: ys from rfl, ih hrest]

theorem splitOnCh_mem (sep : Char) (s : Str) :
    ∀ l ∈ splitOnCh sep s, ∀ c ∈ l, c ∈ s := by
  induction s with
  | nil => simp [splitOnCh]
  | cons x rest ih =>
    simp only [splitOnCh]
    split
    · intro l hl c hc
      rcases List.mem_cons.mp hl with h | h
      · subst h; simp at hc
      · exact List.mem_cons_of_mem x (ih l h c hc)
    · cases h : splitOnCh sep rest with
      | nil => exact absurd h (splitOnCh_ne_nil sep rest)
      | cons l0 ls0 =>
        intro l hl c hc
        rcases List.mem_cons.mp hl with h1 | h1
        · subst h1
          rcases List.mem_cons.mp hc with h2 | h2
          · exact h2 ▸ List.mem_cons_self x rest
          · exact List.mem_cons_of_mem x (ih l0 (h ▸ List.mem_cons_self l0 ls0) c h2)
        · exact List.mem_cons_of_mem x (ih l (h ▸ List.mem_cons_of_mem l0 h1) c hc)

theorem splitOnCh_snoc_sep (sep : Char) (xs : Str) :
    splitOnCh sep (xs ++ [sep]) = splitOnCh sep xs ++ [[]] := by
  induction xs with
  | nil => simp [splitOnCh]
  | cons c rest ih =>
    by_cases hc : c = sep
    · subst hc
      simp only [List.cons_append, splitOnCh, if_pos rfl]
      rw [show rest.append [c] = rest ++ [c] from rfl, ih]
      simp
    · simp only [List.cons_append, splitOnCh, if_neg hc]
      rw [show rest.append [sep] = rest ++ [sep] from rfl, ih]
      cases h : splitOnCh sep rest with
      | nil => exact absurd h (splitOnCh_ne_nil sep rest)
      | cons l ls => simp

theorem splitOnCh_of_not_mem (sep : Char) (xs : Str) (h : sep ∉ xs) :
    splitOnCh sep xs = [xs] := by
  induction xs with
  | nil => simp [splitOnCh]
  | cons c rest ih =>
    have hc : c ≠ sep := fun hh => h (hh ▸ List.mem_cons_self c rest)
    have hr : sep ∉ rest := fun hh => h (List.mem_cons_of_mem c hh)
    simp only [splitOnCh, if_neg hc, ih hr]

theorem dropCR_eq_self (l : Str) (h : '\r' ∉ l) : dropCR l = l := by
  unfold dropCR
  split
  · rename_i hl
    obtain ⟨hne, heq⟩ := List.mem_getLast?_eq_getLast (Option.mem_def.mpr hl)
    exact absurd (heq ▸ List.getLast_mem hne) h
  · rfl

theorem map_id_on {α : Type} (f : α → α) (l : List α) (h : ∀ a ∈ l, f a = a) :
    l.map f = l := by
  induction l with
  | nil => rfl
  | cons x rest ih =>
    simp only [List.map_cons, h x (List.mem_cons_self x rest),
      ih (fun a ha => h a (List.mem_cons_of_mem x ha))]

theorem scanLines_eq (s : Str) (h : splitOnCh '\n' s ≠ [[]]) :
    scanLines s =
      (if (splitOnCh '\n' s).getLast? = some [] then (splitOnCh '\n' s).dropLast
       else splitOnCh '\n' s).map dropCR := by
  unfold scanLines
  split
  · rename_i heq; exact absurd heq h
  · rfl

theorem scanLines_of_terminated (T : Str) (hnl : T.getLast? = some '\n')
    (hcr : '\r' ∉ T) : scanLines T = splitOnCh '\n' T.dropLast := by
  have hT : T.dropLast ++ ['\n'] = T :=
    List.dropLast_append_getLast? _ (Option.mem_def.mpr hnl)
  have hsplit : splitOnCh '\n' T = splitOnCh '\n' T.dropLast ++ [[]] := by
    conv_lhs => rw [← hT]
    exact splitOnCh_snoc_sep _ _
  have hne2 : splitOnCh '\n' T ≠ [[]] := by
    rw [hsplit]
    cases h : splitOnCh '\n' T.dropLast with
    | nil => exact absurd h (splitOnCh_ne_nil _ _)
    | cons l ls => simp
  rw [scanLines_eq T hne2, hsplit, List.getLast?_concat, if_pos rfl,
    List.dropLast_concat]
  apply map_id_on
  intro a ha
  apply dropCR_eq_self
  intro hr
  exact hcr (hT ▸ List.mem_append_left ['\n']
    (splitOnCh_mem '\n' T.dropLast a ha '\r' hr))

theorem parseLine_load_lines (wS wSub wK : Str) (ctx : PCtx Vars) (l : Str) :
    (parseLine [] [] wS wSub wK loadVisitor ctx l).lines =
      ctx.lines ++ [loadLineOut l] := by
  unfold parseLine loadLineOut
  simp only [ne_eq, not_true_eq_false, false_and, if_false, ite_false,
    not_false_eq_true, loadVisitor]
  split
  · rfl
  split
  · rfl
  split
  · rfl
  split
  · rfl
  · rfl

theorem foldl_load_lines (wS wSub wK : Str) (ls : List Str) :
    ∀ ctx : PCtx Vars,
      ((ls.foldl (parseLine [] [] wS wSub wK loadVisitor) ctx).lines) =
        ctx.lines ++ ls.map loadLineOut := by
  induction ls with
  | nil => intro ctx; simp
  | cons l rest ih =>
    intro ctx
    rw [List.foldl_cons, ih]
    have h := parseLine_load_lines wS wSub wK ctx l
    simp [h]

theorem goParseConfig_raw (T : Str) :
    (goParseConfig T).raw =
      joinCh '\n' ((scanLines T).map loadLineOut) ++ ['\n'] := by
  simp only [goParseConfig, parseConfigRun]
  rw [foldl_load_lines]
  simp

/-- C1: the claim that `serialize(parse(T)) == T` for every accepted
input fails: the load visitor rewrites every key-value line into the
canonical tab-indented form, so the space-indented input
`[core]\nkey = value\n` is re-serialized with a tab inserted. -/
theorem c1_roundtrip_cex :
    (goParseConfig ("[core]\nkey = value\n").data).raw =
      ("[core]\n\tkey = value\n").data ∧
    ("[core]\n\tkey = value\n").data ≠ ("[core]\nkey = value\n").data := by
  constructor
  · rfl
  · decide

/-- C1 (amended): the round trip is the identity on every accepted
input that ends with a newline, contains no carriage return, and whose
scanned lines are already in the serializer canonical form (each
key-value line equal to its own re-emission, which `loadLineOut`
computes); in general the load visitor normalizes key-value lines
instead of preserving them. -/
theorem c1_roundtrip_amended (T : Str) (hnl : T.getLast? = some '\n')
    (hcr : '\r' ∉ T) (hcanon : ∀ l ∈ scanLines T, loadLineOut l = l) :
    (goParseConfig T).raw = T := by
  have hT : T.dropLast ++ ['\n'] = T :=
    List.dropLast_append_getLast? _ (Option.mem_def.mpr hnl)
  rw [goParseConfig_raw, map_id_on _ _ hcanon,
    scanLines_of_terminated T hnl hcr, joinCh_splitOnCh, hT]

/-- C1 amended, witnessed at a canonical-form input. -/
theorem c1_roundtrip_witness :
    (goParseConfig ("[core]\n\tkey = value\n").data).raw =
      ("[core]\n\tkey = value\n").data :=
  c1_roundtrip_amended ("[core]\n\tkey = value\n").data
    (by decide) (by decide) (by decide)

/-- C2: read-after-write fails.  `Config.Set` stores the value under the
raw key (here `Core.Pager`), while `Config.Get` canonicalizes before the
lookup (`core.pager`), so after a successful `Set` on a fresh writable
config the very same key reads back as absent instead of `("less", true)`.
The documentation of `Config.Set` says the method normalizes the key. -/
theorem c2_set_get_mismatch :
    (goSet (goParseConfig []) ("Core.Pager").data ("less").data).map
        (fun c => goGet c ("Core.Pager").data) = some ([], false) ∧
    (some (([] : Str), false) : Option (Str × Bool)) ≠
      some (("less").data, true) :=
  ⟨rfl, by decide⟩

/-- C3: after the successful mutation `Set("Core.Pager", "less")`,
re-parsing the text buffer does not reproduce the index: the index keeps
the raw key `Core.Pager`, while the re-parse of the buffer produces only
the canonical key `core.pager`. -/
theorem c3_reparse_mismatch :
    (goSet (goParseConfig []) ("Core.Pager").data ("less").data).map
        (fun c => (varsGet c.vars ("Core.Pager").data,
                   varsGet (goParseConfig c.raw).vars ("Core.Pager").data,
                   varsGet (goParseConfig c.raw).vars ("core.pager").data)) =
      some (some [("less").data], none, some [("less").data]) := rfl

/-- C6: the gitdir predicate of `matchSubSection` does not implement the
claimed exact-or-prefix test.  For pattern `/foo/` (ending in a slash)
and workdir `/foo/bar` the claim requires a match, but the code returns
false; conversely it matches pattern `/foo/bar` against workdir `/foo/`,
because `prefixMatch` receives its two arguments swapped: it demands
that the workdir end in a slash and be a prefix of the pattern. -/
theorem c6_gitdir_mismatch (glob : Str → Str → Bool) :
    matchSubSection glob ("gitdir:/foo/").data ("/foo/bar").data [] = some false ∧
    matchSubSection glob ("gitdir:/foo/bar").data ("/foo/").data [] = some true :=
  ⟨rfl, rfl⟩

/-- C7: predicate evaluation is not total.  For a condition that starts
with `gitdir` but contains no colon (not of any supported form),
`strings.SplitN(subsec, ":", 2)` yields a single element and the code
indexes element 1, a runtime panic (modelled as `none`) instead of the
claimed silent non-match. -/
theorem c7_gitdir_no_colon_panics (glob : Str → Str → Bool)
    (workdir branch : Str) :
    matchSubSection glob ("gitdirnocolon").data workdir branch = none := rfl

theorem varsGet_wf (vars : Vars) (h : VarsWF vars) (k : Str) (vs : List Str)
    (hg : varsGet vars k = some vs) : vs ≠ [] := by
  induction vars with
  | nil => simp [varsGet] at hg
  | cons p rest ih =>
    rw [varsGet] at hg
    split at hg
    · cases hg
      exact h p (List.mem_cons_self p rest)
    · exact ih (fun q hq => h q (List.mem_cons_of_mem p hq)) hg

theorem varsAppendVal_wf (vars : Vars) (h : VarsWF vars) (k v : Str) :
    VarsWF (varsAppendVal vars k v) := by
  induction vars with
  | nil => intro p hp; simp [varsAppendVal] at hp; simp [hp]
  | cons q rest ih =>
    intro p hp
    rw [varsAppendVal] at hp
    split at hp
    · rcases List.mem_cons.mp hp with h1 | h1
      · subst h1; simp
      · exact h p (List.mem_cons_of_mem q h1)
    · rcases List.mem_cons.mp hp with h1 | h1
      · rw [h1]; exact h q (List.mem_cons_self q rest)
      · exact ih (fun r hr => h r (List.mem_cons_of_mem q hr)) p h1

theorem varsSet_wf (vars : Vars) (h : VarsWF vars) (k : Str) (vs : List Str)
    (hvs : vs ≠ []) : VarsWF (varsSet vars k vs) := by
  induction vars with
  | nil => intro p hp; simp [varsSet] at hp; simp [hp, hvs]
  | cons q rest ih =>
    intro p hp
    rw [varsSet] at hp
    split at hp
    · rcases List.mem_cons.mp hp with h1 | h1
      · subst h1; exact hvs
      · exact h p (List.mem_cons_of_mem q h1)
    · rcases List.mem_cons.mp hp with h1 | h1
      · rw [h1]; exact h q (List.mem_cons_self q rest)
      · exact ih (fun r hr => h r (List.mem_cons_of_mem q hr)) p h1

theorem varsDelete_wf (vars : Vars) (h : VarsWF vars) (k : Str) :
    VarsWF (varsDelete vars k) := by
  induction vars with
  | nil => intro p hp; simp [varsDelete] at hp
  | cons q rest ih =>
    intro p hp
    rw [varsDelete] at hp
    split at hp
    · exact h p (List.mem_cons_of_mem q hp)
    · rcases List.mem_cons.mp hp with h1 | h1
      · rw [h1]; exact h q (List.mem_cons_self q rest)
      · exact ih (fun r hr => h r (List.mem_cons_of_mem q hr)) p h1

theorem parseLine_load_st_wf (wS wSub wK : Str) (ctx : PCtx Vars) (l : Str)
    (h : VarsWF ctx.st) :
    VarsWF (parseLine [] [] wS wSub wK loadVisitor ctx l).st := by
  unfold parseLine
  simp only [ne_eq, not_true_eq_false, false_and, if_false, ite_false,
    not_false_eq_true, loadVisitor]
  split
  · exact h
  split
  · exact h
  split
  · exact h
  split
  · exact h
  · exact varsAppendVal_wf _ h _ _

theorem foldl_load_st_wf (wS wSub wK : Str) (ls : List Str) :
    ∀ ctx : PCtx Vars, VarsWF ctx.st →
      VarsWF ((ls.foldl (parseLine [] [] wS wSub wK loadVisitor) ctx).st) := by
  induction ls with
  | nil => intro ctx h; exact h
  | cons l rest ih =>
    intro ctx h
    exact ih _ (parseLine_load_st_wf wS wSub wK ctx l h)

theorem goParseConfig_wf (T : Str) : VarsWF (goParseConfig T).vars := by
  simp only [goParseConfig, parseConfigRun]
  exact foldl_load_st_wf _ _ _ _ _ (by intro p hp; simp at hp)

theorem set_nonempty_of_nonempty (vs : List Str) (v : Str) (h : vs ≠ []) :
    vs.set 0 v ≠ [] := by
  cases vs with
  | nil => exact absurd rfl h
  | cons x rest => simp

theorem goSet_wf (c : Config) (k v : Str) (c2 : Config) (h : VarsWF c.vars)
    (hs : goSet c k v = some c2) : VarsWF c2.vars := by
  simp only [goSet] at hs
  split at hs
  · cases hs
  split at hs
  · cases hs; exact h
  split at hs
  · cases hs; exact h
  split at hs
  · rename_i vs hget
    cases hs
    exact varsSet_wf _ h _ _
      (set_nonempty_of_nonempty vs v (varsGet_wf _ h _ _ hget))
  · cases hs
    exact varsSet_wf _ h _ _ (by simp)

theorem goUnset_wf (c : Config) (k : Str) (h : VarsWF c.vars) :
    VarsWF (goUnset c k).vars := by
  simp only [goUnset]
  split
  · exact h
  split
  · exact h
  · exact varsDelete_wf _ h _

theorem mergeVars_wf (l : List (Str × List Str)) :
    ∀ acc : Vars, VarsWF acc → (∀ p ∈ l, p.2 ≠ []) →
      VarsWF (l.foldl (fun vars p =>
        match varsGet vars p.1 with
        | some vs => varsSet vars p.1 (vs ++ p.2)
        | none => vars ++ [(p.1, [] ++ p.2)]) acc) := by
  induction l with
  | nil => intro acc ha _; exact ha
  | cons p rest ih =>
    intro acc ha hl
    rw [List.foldl_cons]
    apply ih _ _ (fun q hq => hl q (List.mem_cons_of_mem p hq))
    split
    · rename_i vs hget
      exact varsSet_wf _ ha _ _ (by
        have := varsGet_wf _ ha _ _ hget
        intro hh
        exact this (List.append_eq_nil.mp hh).1)
    · intro q hq
      rcases List.mem_append.mp hq with h1 | h1
      · exact ha q h1
      · simp at h1
        rw [h1]
        exact hl p (List.mem_cons_self p rest)

theorem mergeConfigs_wf (b e : Config) (hb : VarsWF b.vars)
    (he : VarsWF e.vars) : VarsWF (mergeConfigs b e).vars := by
  unfold mergeConfigs
  exact mergeVars_wf e.vars b.vars hb he

theorem envLoop_wf (env : Str → Option Str) (pfx : Str) :
    ∀ (rem i : Nat) (acc : Vars), VarsWF acc →
      ∀ vars, envLoop env pfx rem i acc = some vars → VarsWF vars := by
  intro rem
  induction rem with
  | zero =>
    intro i acc ha vars hv
    rw [envLoop] at hv
    cases hv
    exact ha
  | succ n ih =>
    intro i acc ha vars hv
    rw [envLoop] at hv
    split at hv
    · cases hv
    · split at hv
      · cases hv
      · exact ih _ _ (varsAppendVal_wf _ ha _ _) vars hv

theorem loadConfigFromEnv_wf (env : Str → Option Str) (pfx : Str) :
    VarsWF (loadConfigFromEnv env pfx).vars := by
  unfold loadConfigFromEnv
  split
  · intro p hp; simp at hp
  split
  · intro p hp; simp at hp
  split
  · intro p hp; simp at hp
  · rename_i vars hv
    exact envLoop_wf env pfx _ _ _ (by intro p hp; simp at hp) _ hv

/-- C10: every operation that builds or mutates the index keeps every
present key mapped to a non-empty value sequence, and `GetAll` on a
present key therefore never returns an empty sequence. -/
theorem c10_nonempty_values :
    (∀ T : Str, VarsWF (goParseConfig T).vars) ∧
    (∀ (c : Config) (k v : Str) (c2 : Config), VarsWF c.vars →
      goSet c k v = some c2 → VarsWF c2.vars) ∧
    (∀ (c : Config) (k : Str), VarsWF c.vars → VarsWF (goUnset c k).vars) ∧
    (∀ b e : Config, VarsWF b.vars → VarsWF e.vars →
      VarsWF (mergeConfigs b e).vars) ∧
    (∀ (env : Str → Option Str) (pfx : Str),
      VarsWF (loadConfigFromEnv env pfx).vars) ∧
    (∀ (c : Config) (k : Str) (vs : List Str), VarsWF c.vars →
      goGetAll c k = some vs → vs ≠ []) :=
  ⟨goParseConfig_wf, goSet_wf, goUnset_wf, mergeConfigs_wf,
    loadConfigFromEnv_wf,
    fun c k vs h hg => varsGet_wf c.vars h (canonicalizeKey k) vs hg⟩

/-- C10 witnessed on a concrete parsed config and mutation. -/
theorem c10_witness :
    VarsWF (goUnset (goParseConfig ("[core]\nfoo = bar\n").data)
      ("core.foo").data).vars :=
  c10_nonempty_values.2.2.1 _ _
    (c10_nonempty_values.1 ("[core]\nfoo = bar\n").data)

theorem clean_char_ne (c : Char)
    (hc : (97 ≤ c.toNat ∧ c.toNat ≤ 122) ∨ (48 ≤ c.toNat ∧ c.toNat ≤ 57))
    (d : Char)
    (hd : d.toNat < 48 ∨ (57 < d.toNat ∧ d.toNat < 97) ∨ 122 < d.toNat) :
    c ≠ d := by
  intro h
  subst h
  omega

theorem clean_char_nonspace (c : Char)
    (hc : (97 ≤ c.toNat ∧ c.toNat ≤ 122) ∨ (48 ≤ c.toNat ∧ c.toNat ≤ 57)) :
    isSpaceChar c = false := by
  have h1 := clean_char_ne c hc ' ' (by decide)
  have h2 := clean_char_ne c hc '\t' (by decide)
  have h3 := clean_char_ne c hc '\n' (by decide)
  have h4 := clean_char_ne c hc '\x0b' (by decide)
  have h5 := clean_char_ne c hc '\x0c' (by decide)
  have h6 := clean_char_ne c hc '\r' (by decide)
  simp [isSpaceChar, h1, h2, h3, h4, h5, h6]

theorem clean_not_mem (v : Str) (hv : CleanVal v) (d : Char)
    (hd : d.toNat < 48 ∨ (57 < d.toNat ∧ d.toNat < 97) ∨ 122 < d.toNat) :
    d ∉ v := by
  intro h
  exact clean_char_ne d (hv.2 d h) d hd rfl

theorem dropWhile_all_false {α : Type} (p : α → Bool) (l : List α)
    (h : ∀ c ∈ l, p c = false) : l.dropWhile p = l := by
  cases l with
  | nil => rfl
  | cons c rest =>
    rw [List.dropWhile_cons, h c (List.mem_cons_self c rest)]
    simp

theorem trimRight_append (xs a : Str) (ha : a ≠ [])
    (h : ∀ c ∈ a, isSpaceChar c = false) :
    trimRight (xs ++ a) = xs ++ a := by
  unfold trimRight
  rw [List.reverse_append]
  cases hrev : a.reverse with
  | nil => exact absurd (List.reverse_eq_nil_iff.mp hrev) ha
  | cons c t =>
    have hc : c ∈ a := by
      have : c ∈ a.reverse := hrev ▸ List.mem_cons_self c t
      exact List.mem_reverse.mp this
    rw [List.cons_append, List.dropWhile_cons, h c hc]
    simp only [Bool.false_eq_true, if_false]
    rw [← List.cons_append, ← hrev, List.reverse_append,
      List.reverse_reverse, List.reverse_reverse]

theorem goTrimSpace_clean_tail (c0 : Char) (xs v : Str)
    (hc0 : isSpaceChar c0 = false) (hv : CleanVal v) :
    goTrimSpace (c0 :: xs ++ v) = c0 :: xs ++ v := by
  unfold goTrimSpace trimLeft
  rw [List.cons_append, List.dropWhile_cons, hc0]
  simp only [Bool.false_eq_true, if_false]
  rw [← List.cons_append]
  exact trimRight_append (c0 :: xs) v hv.1
    (fun c hc => clean_char_nonspace c (hv.2 c hc))

theorem goTrimSpace_space_clean (v : Str) (hv : CleanVal v) :
    goTrimSpace (' ' :: v) = v := by
  unfold goTrimSpace trimLeft
  rw [List.dropWhile_cons]
  simp only [show isSpaceChar ' ' = true from rfl, if_true]
  rw [dropWhile_all_false _ v (fun c hc => clean_char_nonspace c (hv.2 c hc))]
  have := trimRight_append [] v hv.1
    (fun c hc => clean_char_nonspace c (hv.2 c hc))
  simpa using this

theorem trimCutset_clean (cutset : List Char) (v : Str)
    (h : ∀ c ∈ v, cutset.contains c = false) :
    trimCutset cutset v = v := by
  unfold trimCutset
  rw [dropWhile_all_false _ v h,
    dropWhile_all_false _ v.reverse (fun c hc => h c (List.mem_reverse.mp hc)),
    List.reverse_reverse]

theorem replacePair_not_mem (x y r : Char) :
    ∀ s : Str, x ∉ s → replacePair x y r s = s
  | [], _ => rfl
  | [c], _ => rfl
  | c1 :: c2 :: rest, h => by
    have h1 : ¬(c1 = x ∧ c2 = y) := by
      rintro ⟨rfl, -⟩
      exact h (List.mem_cons_self c1 (c2 :: rest))
    rw [replacePair, if_neg h1,
      replacePair_not_mem x y r (c2 :: rest) (fun hm => h (List.mem_cons_of_mem c1 hm))]

theorem unescapeValue_clean (v : Str) (h : '\\' ∉ v) : unescapeValue v = v := by
  simp only [unescapeValue]
  rw [replacePair_not_mem _ _ _ v h, replacePair_not_mem _ _ _ v h,
    replacePair_not_mem _ _ _ v h, replacePair_not_mem _ _ _ v h,
    replacePair_not_mem _ _ _ v h]

theorem splitValueComment_clean (v : Str) (hv : CleanVal v) :
    splitValueComment v = (v, []) := by
  have hany : v.any (fun c => c = '#' || c = ';') = false := by
    rw [List.any_eq_false]
    intro c hc
    have h1 := clean_char_ne c (hv.2 c hc) '#' (by decide)
    have h2 := clean_char_ne c (hv.2 c hc) ';' (by decide)
    simp [h1, h2]
  unfold splitValueComment
  rw [hany]
  simp only [Bool.false_eq_true, not_false_eq_true, if_true]
  rw [trimCutset_clean _ v (fun c hc => by
    have := clean_char_ne c (hv.2 c hc) '"' (by decide)
    simp [this])]

theorem cutChar_kvLine (v : Str) :
    cutChar '=' (kvLine v) = some (['k', ' '], ' ' :: v) := by
  simp [kvLine, cutChar]

theorem lineInfo_kv (v : Str) (hv : CleanVal v) :
    lineInfo false (kvLine v) = some ⟨['k'], ['k'], v, []⟩ := by
  unfold lineInfo lineKV
  rw [cutChar_kvLine]
  simp only []
  rw [show goTrimSpace ['k', ' '] = ['k'] from rfl]
  rw [show goToLower ['k'] = ['k'] from rfl]
  rw [show validKey ['k'] = true from rfl]
  simp only [Bool.true_eq_false, not_true_eq_false, if_false, ite_false,
    not_false_eq_true, if_true]
  rw [goTrimSpace_space_clean v hv, splitValueComment_clean v hv]
  rw [unescapeValue_clean v (clean_not_mem v hv '\\' (by decide))]

theorem goTrimSpace_kvLine (v : Str) (hv : CleanVal v) :
    goTrimSpace (kvLine v) = kvLine v := by
  have := goTrimSpace_clean_tail 'k' [' ', '=', ' '] v (by decide) hv
  simpa [kvLine] using this

theorem newline_not_mem_kvLine (v : Str) (hv : CleanVal v) :
    '\n' ∉ kvLine v := by
  intro h
  simp only [kvLine, List.mem_cons] at h
  rcases h with h | h | h | h | h
  · exact absurd h (by decide)
  · exact absurd h (by decide)
  · exact absurd h (by decide)
  · exact absurd h (by decide)
  · exact clean_not_mem v hv '\n' (by decide) h

theorem scanLines_inputThree (a b c : Str) (ha : CleanVal a) (hb : CleanVal b)
    (hc : CleanVal c) :
    scanLines (inputThree a b c) =
      [("[core]").data, kvLine a, kvLine b, kvLine c] := by
  have hshape : inputThree a b c =
      ("[core]").data ++ '\n' ::
        (kvLine a ++ '\n' :: (kvLine b ++ '\n' :: (kvLine c ++ ['\n']))) := by
    simp [inputThree, kvLine]
  have hsplit : splitOnCh '\n' (inputThree a b c) =
      [("[core]").data, kvLine a, kvLine b, kvLine c, []] := by
    rw [hshape]
    rw [splitOnCh_append_sep '\n' _ _ (by decide)]
    rw [splitOnCh_append_sep '\n' _ _ (newline_not_mem_kvLine a ha)]
    rw [splitOnCh_append_sep '\n' _ _ (newline_not_mem_kvLine b hb)]
    rw [splitOnCh_snoc_sep '\n' _]
    rw [splitOnCh_of_not_mem '\n' _ (newline_not_mem_kvLine c hc)]
    simp
  have hne : splitOnCh '\n' (inputThree a b c) ≠ [[]] := by
    rw [hsplit]; simp
  rw [scanLines_eq _ hne, hsplit]
  have hdropa : dropCR (kvLine a) = kvLine a :=
    dropCR_eq_self _ (fun h => by
      simp only [kvLine, List.mem_cons] at h
      rcases h with h | h | h | h | h
      · exact absurd h (by decide)
      · exact absurd h (by decide)
      · exact absurd h (by decide)
      · exact absurd h (by decide)
      · exact clean_not_mem a ha '\r' (by decide) h)
  have hdropb : dropCR (kvLine b) = kvLine b :=
    dropCR_eq_self _ (fun h => by
      simp only [kvLine, List.mem_cons] at h
      rcases h with h | h | h | h | h
      · exact absurd h (by decide)
      · exact absurd h (by decide)
      · exact absurd h (by decide)
      · exact absurd h (by decide)
      · exact clean_not_mem b hb '\r' (by decide) h)
  have hdropc : dropCR (kvLine c) = kvLine c :=
    dropCR_eq_self _ (fun h => by
      simp only [kvLine, List.mem_cons] at h
      rcases h with h | h | h | h | h
      · exact absurd h (by decide)
      · exact absurd h (by decide)
      · exact absurd h (by decide)
      · exact absurd h (by decide)
      · exact clean_not_mem c hc '\r' (by decide) h)
  rw [show (([("[core]").data, kvLine a, kvLine b, kvLine c, []] : List Str).getLast?
      = some []) from rfl, if_pos rfl,
    show List.dropLast [("[core]").data, kvLine a, kvLine b, kvLine c, ([] : Str)]
      = [("[core]").data, kvLine a, kvLine b, kvLine c] from rfl]
  simp [hdropa, hdropb, hdropc,
    show dropCR ("[core]").data = ("[core]").data from by decide]

theorem goTrimSpace_clean (v : Str) (hv : CleanVal v) : goTrimSpace v = v := by
  unfold goTrimSpace trimLeft
  rw [dropWhile_all_false _ v (fun c hc => clean_char_nonspace c (hv.2 c hc))]
  have := trimRight_append [] v hv.1
    (fun c hc => clean_char_nonspace c (hv.2 c hc))
  simpa using this

theorem parseLine_load_header (L : List Str) (V : Vars) :
    parseLine [] [] [] [] [] loadVisitor ⟨[], [], L, V⟩ (("[core]").data) =
      ⟨("core").data, [], L ++ [("[core]").data], V⟩ := rfl

theorem formatKeyValue_kv (v : Str) (hv : CleanVal v) :
    formatKeyValue ['k'] v [] = tabLine v := by
  unfold formatKeyValue
  rw [goTrimSpace_clean v hv, if_neg hv.1]
  simp [tabLine]

theorem parseLine_load_kv (L : List Str) (V : Vars) (v : Str)
    (hv : CleanVal v) :
    parseLine [] [] [] [] [] loadVisitor ⟨("core").data, [], L, V⟩ (kvLine v) =
      ⟨("core").data, [], L ++ [tabLine v],
        varsAppendVal V (("core.k").data) v⟩ := by
  have h1 : startsWith ['#'] (kvLine v) = false := by
    simp [startsWith, kvLine, List.isPrefixOf]
  have h2 : startsWith [';'] (kvLine v) = false := by
    simp [startsWith, kvLine, List.isPrefixOf]
  have h3 : startsWith ['['] (kvLine v) = false := by
    simp [startsWith, kvLine, List.isPrefixOf]
  unfold parseLine
  rw [goTrimSpace_kvLine v hv]
  simp only [h1, h2, h3, Bool.false_eq_true, if_false, false_and, ite_false,
    ne_eq, not_true_eq_false, lineInfo_kv v hv]
  simp only [loadVisitor, if_true, ite_true, Bool.false_eq_true, if_false,
    ite_false]
  rw [formatKeyValue_kv v hv]
  rfl

theorem rewriteRaw_vars {σ : Type} (c : Config) (k v : Str) (cb : Visitor σ)
    (s0 : σ) : (rewriteRaw c k v cb s0).vars = c.vars := rfl

theorem goSet_found (cfg : Config) (k d : Str) (vs : List Str)
    (hk : ¬((splitKey k).1 = [] ∨ (splitKey k).2.2 = []))
    (hro : cfg.readonly = false)
    (hget : varsGet cfg.vars k = some vs) :
    goSet cfg k d =
      if vs.contains d then some cfg
      else some (rewriteRaw
        { cfg with vars := varsSet cfg.vars k (vs.set 0 d) } k d
        setVisitor false) := by
  simp only [goSet, hro, hget, Bool.false_eq_true, if_false, ite_false]
  rw [if_neg hk]

theorem parse_inputThree_vars (a b c : Str) (ha : CleanVal a)
    (hb : CleanVal b) (hc : CleanVal c) :
    (goParseConfig (inputThree a b c)).vars = [(("core.k").data, [a, b, c])] := by
  simp only [goParseConfig, parseConfigRun]
  rw [scanLines_inputThree a b c ha hb hc,
    show splitKey [] = ([], [], []) from rfl]
  rw [List.foldl_cons, parseLine_load_header [] [],
    List.foldl_cons, parseLine_load_kv _ _ a ha,
    List.foldl_cons, parseLine_load_kv _ _ b hb,
    List.foldl_cons, parseLine_load_kv _ _ c hc,
    List.foldl_nil]
  simp [varsAppendVal]

theorem parse_inputThree_getAll (a b c : Str) (ha : CleanVal a)
    (hb : CleanVal b) (hc : CleanVal c) :
    goGetAll (goParseConfig (inputThree a b c)) (("core.k").data) =
      some [a, b, c] := by
  unfold goGetAll
  rw [parse_inputThree_vars a b c ha hb hc]
  simp [varsGet, show canonicalizeKey (("core.k").data) = ("core.k").data from rfl]

/-- C4: the claim fails on its no-op clause.  On the input where
`core.k` carries the values a, b, c (concretely parsed here), setting
the value `c` is a no-op success even though `c` is not the first value
(`Set` uses a membership test over all values), and consequently
`getAll` afterwards still yields `[a, b, c]`, not `[c, b, c]` as the
claim predicts after `set(k, d)`. -/
theorem c4_multivalue_cex :
    goSet (goParseConfig (inputThree ("a").data ("b").data ("c").data))
        (("core.k").data) (("c").data) =
      some (goParseConfig (inputThree ("a").data ("b").data ("c").data)) ∧
    goGetAll (goParseConfig (inputThree ("a").data ("b").data ("c").data))
        (("core.k").data) = some [("a").data, ("b").data, ("c").data] ∧
    ([("a").data, ("b").data, ("c").data] : List Str) ≠
      [("c").data, ("b").data, ("c").data] := by
  refine ⟨by decide, by decide, by decide⟩

/-- C4 (amended): on an input where `core.k` appears three times with
clean values a, b, c: `getAll` returns `[a, b, c]`; after `set` with a
value d not yet present, `getAll` returns `[d, b, c]` (first occurrence
rewritten); and `set(k, d)` is a no-op success exactly when d is
already present among the values of k at any position (the code tests
membership, not first-value equality). -/
theorem c4_multivalue_amended (a b c d : Str) (ha : CleanVal a)
    (hb : CleanVal b) (hc : CleanVal c) :
    goGetAll (goParseConfig (inputThree a b c)) (("core.k").data) =
      some [a, b, c] ∧
    (d ∉ ([a, b, c] : List Str) →
      (goSet (goParseConfig (inputThree a b c)) (("core.k").data) d).map
        (fun c2 => goGetAll c2 (("core.k").data)) = some (some [d, b, c])) ∧
    (goSet (goParseConfig (inputThree a b c)) (("core.k").data) d =
        some (goParseConfig (inputThree a b c)) ↔ d ∈ ([a, b, c] : List Str)) := by
  have hvars := parse_inputThree_vars a b c ha hb hc
  have hro : (goParseConfig (inputThree a b c)).readonly = false := rfl
  have hget : varsGet (goParseConfig (inputThree a b c)).vars (("core.k").data) =
      some [a, b, c] := by
    rw [hvars]; simp [varsGet]
  have hcontains : ([a, b, c] : List Str).contains d = true ↔
      d ∈ ([a, b, c] : List Str) := List.elem_iff
  have hkey : ¬((splitKey (("core.k").data)).1 = [] ∨
      (splitKey (("core.k").data)).2.2 = []) := by decide
  have hfound := goSet_found (goParseConfig (inputThree a b c))
    (("core.k").data) d [a, b, c] hkey hro hget
  refine ⟨parse_inputThree_getAll a b c ha hb hc, ?_, ?_⟩
  · intro hd
    have hcf : ([a, b, c] : List Str).contains d = false := by
      rw [← Bool.not_eq_true]
      intro hh
      exact hd (hcontains.mp hh)
    rw [hfound, hcf]
    simp only [Bool.false_eq_true, if_false, ite_false, Option.map_some']
    simp only [goGetAll]
    rw [rewriteRaw_vars]
    dsimp only
    rw [hvars, show (([a, b, c] : List Str).set 0 d) = [d, b, c] from rfl,
      show canonicalizeKey (("core.k").data) = ("core.k").data from rfl]
    simp [varsSet, varsGet]
  · constructor
    · intro hset
      by_cases hmem : d ∈ ([a, b, c] : List Str)
      · exact hmem
      · exfalso
        have hcf : ([a, b, c] : List Str).contains d = false := by
          rw [← Bool.not_eq_true]
          intro hh
          exact hmem (hcontains.mp hh)
        rw [hfound, hcf] at hset
        simp only [Bool.false_eq_true, if_false, ite_false] at hset
        have hvars2 := congrArg Config.vars (Option.some.inj hset)
        rw [rewriteRaw_vars] at hvars2
        simp only [hvars] at hvars2
        rw [show (([a, b, c] : List Str).set 0 d) = [d, b, c] from rfl] at hvars2
        simp [varsSet] at hvars2
        exact hmem (by simp [hvars2])
    · intro hmem
      have hct : ([a, b, c] : List Str).contains d = true := hcontains.mpr hmem
      rw [hfound, hct]
      simp

/-- C4 amended, witnessed at concrete values. -/
theorem c4_multivalue_witness :
    goGetAll (goParseConfig (inputThree ("a").data ("b").data ("c").data))
        (("core.k").data) = some [("a").data, ("b").data, ("c").data] :=
  (c4_multivalue_amended ("a").data ("b").data ("c").data ("d").data
    (by decide) (by decide) (by decide)).1

theorem insertStep_written_true (wS wSub wK value : Str) (st : InsCtx)
    (l : Str) (hw : st.written = true) :
    insertStep wS wSub wK value st l = ⟨st.lines ++ [l], st.sec, st.sub, true⟩ := by
  unfold insertStep
  rw [if_pos hw]

theorem insertFold_written (wS wSub wK value : Str) (ls : List Str) :
    ∀ (st : InsCtx), st.written = true →
      ls.foldl (insertStep wS wSub wK value) st =
        ⟨st.lines ++ ls, st.sec, st.sub, true⟩ := by
  induction ls with
  | nil => intro st hw; cases st; simp_all
  | cons l rest ih =>
    intro st hw
    rw [List.foldl_cons, insertStep_written_true wS wSub wK value st l hw,
      ih _ rfl]
    simp

theorem insertStep_shape (wS wSub wK value : Str) (st : InsCtx) (l : Str) :
    (∃ s1 s2, insertStep wS wSub wK value st l =
      ⟨st.lines ++ [l], s1, s2, st.written⟩) ∨
    (st.written = false ∧ ∃ s1 s2, insertStep wS wSub wK value st l =
      ⟨st.lines ++ [l, formatKeyValue wK value []], s1, s2, true⟩) := by
  unfold insertStep
  split
  · rename_i hw
    exact Or.inl ⟨st.sec, st.sub, by rw [hw]⟩
  rename_i hw
  have hw0 : st.written = false := by revert hw; cases st.written <;> simp
  split
  · exact Or.inl ⟨st.sec, st.sub, by rw [hw0]⟩
  split
  · exact Or.inl ⟨st.sec, st.sub, by rw [hw0]⟩
  dsimp only
  by_cases hhdr : startsWith ['['] l = true
  · simp only [hhdr, if_true, ite_true, true_and]
    split
    · exact Or.inl ⟨st.sec, st.sub, by rw [hw0]⟩
    split
    · exact Or.inr ⟨hw0, (parseSectionHeader l).1, (parseSectionHeader l).2.1,
        by simp⟩
    · exact Or.inl ⟨(parseSectionHeader l).1, (parseSectionHeader l).2.1,
        by rw [hw0]⟩
  · simp only [hhdr, Bool.false_eq_true, false_and, if_false, ite_false]
    split
    · exact Or.inr ⟨hw0, st.sec, st.sub, by simp⟩
    · exact Or.inl ⟨st.sec, st.sub, by rw [hw0]⟩

theorem insertFold_not_written (wS wSub wK value : Str) (ls : List Str) :
    ∀ st : InsCtx,
      (ls.foldl (insertStep wS wSub wK value) st).written = false →
      st.written = false ∧
      (ls.foldl (insertStep wS wSub wK value) st).lines = st.lines ++ ls ∧
      (ls.foldl (insertStep wS wSub wK value) st).written = false := by
  induction ls with
  | nil => intro st h; exact ⟨h, by simp, h⟩
  | cons l rest ih =>
    intro st h
    rw [List.foldl_cons] at h ⊢
    rcases insertStep_shape wS wSub wK value st l with ⟨s1, s2, hs⟩ | ⟨hw0, s1, s2, hs⟩
    · rw [hs] at h ⊢
      obtain ⟨h1, h2, h3⟩ := ih _ h
      simp only at h1
      refine ⟨h1, ?_, h3⟩
      rw [h2, h1] at *
      simp [h2]
    · rw [hs] at h
      rw [insertFold_written wS wSub wK value rest _ rfl] at h
      simp at h

theorem startsWith_bracket_not_comment (l : Str)
    (h : startsWith ['['] l = true) :
    startsWith ['#'] l = false ∧ startsWith [';'] l = false := by
  cases l with
  | nil => simp [startsWith, List.isPrefixOf] at h
  | cons c t =>
    simp only [startsWith, List.isPrefixOf, Bool.and_true, beq_iff_eq] at h
    subst h
    constructor <;> simp [startsWith, List.isPrefixOf]

theorem insertStep_match_header (wS wSub wK value : Str) (st : InsCtx)
    (l : Str) (hw : st.written = false) (hnh : startsWith ['['] l = true)
    (hph : parseSectionHeader l = (wS, wSub, false)) :
    insertStep wS wSub wK value st l =
      ⟨st.lines ++ [l, formatKeyValue wK value []], wS, wSub, true⟩ := by
  obtain ⟨h1, h2⟩ := startsWith_bracket_not_comment l hnh
  unfold insertStep
  rw [if_neg (by simp [hw]), if_neg (by simp [h1]), if_neg (by simp [h2])]
  simp only [hnh, hph, Bool.false_eq_true, and_false, if_false, ite_false,
    if_true, ite_true, and_self]
  simp

/-- C5: the claim that a new `key = value` line is inserted into the
last matching block fails.  With two `[a]` blocks, setting the new key
`a.w` inserts the line immediately after the first `[a]` header (the
scan stops at the first match), before `[b]`, not into the last block. -/
theorem c5_insert_cex :
    (goSet (goParseConfig ("[a]\nx = 1\n[b]\ny = 2\n[a]\nz = 3\n").data)
        (("a.w").data) (("v").data)).map Config.raw =
      some (("[a]\n\tw = v\n\tx = 1\n[b]\n\ty = 2\n[a]\n\tz = 3\n").data) ∧
    (("[a]\n\tw = v\n\tx = 1\n[b]\n\ty = 2\n[a]\n\tz = 3\n").data) ≠
      (("[a]\n\tx = 1\n[b]\n\ty = 2\n[a]\n\tw = v\n\tz = 3\n").data) :=
  ⟨by decide, by decide⟩

/-- C5 (amended): `insertValue` inserts the new line immediately after
the FIRST matching section header found scanning top-to-bottom (second
conjunct), and appends a brand-new section block at end-of-file when no
line of the scan matches (first conjunct). -/
theorem c5_insert_amended :
    (∀ (c : Config) (key value : Str),
      ((scanLines c.raw).foldl
        (insertStep (splitKey key).1 (splitKey key).2.1 (splitKey key).2.2 value)
        ⟨[], [], [], false⟩).written = false →
      (goInsertValue c key value).raw =
        joinCh '\n' (scanLines c.raw ++
          [sectHeaderLine (splitKey key).1 (splitKey key).2.1,
           formatKeyValue (splitKey key).2.2 value []]) ++ ['\n']) ∧
    (∀ (c : Config) (key value : Str) (pre post : List Str) (hdr : Str),
      scanLines c.raw = pre ++ hdr :: post →
      (pre.foldl
        (insertStep (splitKey key).1 (splitKey key).2.1 (splitKey key).2.2 value)
        ⟨[], [], [], false⟩).written = false →
      startsWith ['['] hdr = true →
      parseSectionHeader hdr = ((splitKey key).1, (splitKey key).2.1, false) →
      (goInsertValue c key value).raw =
        joinCh '\n'
          (pre ++ hdr :: formatKeyValue (splitKey key).2.2 value [] :: post)
          ++ ['\n']) := by
  constructor
  · intro c key value hnw
    obtain ⟨-, hlines, -⟩ :=
      insertFold_not_written (splitKey key).1 (splitKey key).2.1
        (splitKey key).2.2 value (scanLines c.raw) ⟨[], [], [], false⟩ hnw
    simp only [goInsertValue]
    rw [if_neg (by simp [hnw]), hlines]
    simp
  · intro c key value pre post hdr hscan hnw hsw hph
    obtain ⟨-, hlines, -⟩ :=
      insertFold_not_written (splitKey key).1 (splitKey key).2.1
        (splitKey key).2.2 value pre ⟨[], [], [], false⟩ hnw
    simp only [goInsertValue]
    rw [hscan, List.foldl_append, List.foldl_cons,
      insertStep_match_header _ _ _ value _ hdr hnw hsw hph,
      insertFold_written _ _ _ value post _ rfl]
    rw [hlines]
    simp

/-- C5 amended, witnessed at a no-match input and a first-match input. -/
theorem c5_insert_witness :
    ((goInsertValue
        { path := [], readonly := false, noWrites := true,
          raw := ("[x]\nq = 1\n").data, vars := [], branch := [] }
        (("foo.bar").data) (("v").data)).raw =
      joinCh '\n' (scanLines ("[x]\nq = 1\n").data ++
        [sectHeaderLine (splitKey ("foo.bar").data).1
          (splitKey ("foo.bar").data).2.1,
         formatKeyValue (splitKey ("foo.bar").data).2.2 (("v").data) []]) ++
        ['\n']) ∧
    ((goInsertValue
        { path := [], readonly := false, noWrites := true,
          raw := ("[x]\n[a]\nz = 3\n").data, vars := [], branch := [] }
        (("a.w").data) (("v").data)).raw =
      joinCh '\n' ([("[x]").data] ++ ("[a]").data ::
        formatKeyValue (splitKey ("a.w").data).2.2 (("v").data) [] ::
        [("z = 3").data]) ++ ['\n']) :=
  ⟨c5_insert_amended.1 _ _ _ (by decide),
   c5_insert_amended.2 _ _ _ [("[x]").data] [("z = 3").data] (("[a]").data)
     (by decide) (by decide) (by decide) (by decide)⟩

theorem splitAtCommentCh_none_iff (v : Str) :
    splitAtCommentCh v = none ↔ v.any (fun c => c = '#' || c = ';') = false := by
  induction v with
  | nil => simp [splitAtCommentCh]
  | cons c rest ih =>
    rw [splitAtCommentCh]
    split
    · rename_i hc
      simp only [List.any_cons]
      constructor
      · intro h; simp at h
      · intro h
        rcases hc with hc | hc <;> simp [hc] at h
    · rename_i hc
      simp only [List.any_cons, Option.map_eq_none', ih]
      have h1 : (c = '#' || c = ';') = false := by
        rcases Decidable.em (c = '#') with h | h
        · exact absurd (Or.inl h) hc
        · rcases Decidable.em (c = ';') with h2 | h2
          · exact absurd (Or.inr h2) hc
          · simp [h, h2]
      simp [h1]

theorem splitAtCommentCh_some (v : Str) :
    ∀ (before after : Str) (d : Char),
      splitAtCommentCh v = some (before, d, after) →
      v = before ++ d :: after ∧ (d = '#' ∨ d = ';') ∧
        ∀ c ∈ before, ¬(c = '#' ∨ c = ';') := by
  induction v with
  | nil => intro b a d h; simp [splitAtCommentCh] at h
  | cons c rest ih =>
    intro b a d h
    rw [splitAtCommentCh] at h
    split at h
    · rename_i hc
      cases h
      exact ⟨rfl, hc, by simp⟩
    · rename_i hc
      rcases Option.map_eq_some'.mp h with ⟨⟨b2, d2, a2⟩, h1, h2⟩
      obtain ⟨he, hd, hb⟩ := ih b2 a2 d2 h1
      dsimp only at h2
      cases h2
      refine ⟨by simp [he], hd, ?_⟩
      intro x hx
      rcases List.mem_cons.mp hx with h3 | h3
      · exact h3 ▸ hc
      · exact hb x h3

theorem quotedCommentMatch_no_quote (v : Str) (h : '"' ∉ v) :
    quotedCommentMatch v = false := by
  unfold quotedCommentMatch
  rw [splitOnCh_of_not_mem '"' v h]
  simp

theorem trimCutset_no_quote (v : Str) (h : '"' ∉ v) :
    trimCutset ['"'] v = v := by
  apply trimCutset_clean
  intro c hc
  have : c ≠ '"' := fun hh => h (hh ▸ hc)
  simp [List.contains, this]

theorem quotedCommentMatch_one_quote (x y : Str) (hx : '"' ∉ x)
    (hy : '"' ∉ y) : quotedCommentMatch (x ++ '"' :: y) = false := by
  unfold quotedCommentMatch
  rw [splitOnCh_append_sep '"' x y hx, splitOnCh_of_not_mem '"' y hy]
  simp

theorem goTrimSpace_subset (l : Str) : ∀ c ∈ goTrimSpace l, c ∈ l := by
  intro c hc
  unfold goTrimSpace trimRight trimLeft at hc
  have h1 := (List.dropWhile_sublist (l := (l.dropWhile isSpaceChar).reverse)
    (p := isSpaceChar)).subset
  have h2 := (List.dropWhile_sublist (l := l) (p := isSpaceChar)).subset
  rw [List.mem_reverse] at hc
  exact h2 (List.mem_reverse.mp (h1 hc))

/-- C8: the comment split does not behave as claimed.  For an unquoted
value the returned comment keeps the delimiter and a prepended space and
is not trimmed (`"v #c"` yields comment `" #c"`, not `"c"`); and a value
with an unterminated double quote before the delimiter is still split at
the comment character instead of being treated wholly as content. -/
theorem c8_comment_split_cex :
    splitValueComment (("v #c").data) = ((("v").data), ((" #c").data)) ∧
    ((" #c").data : Str) ≠ (("c").data) ∧
    splitValueComment (("\"a#b").data) = ((("a").data), ((" #b").data)) ∧
    (((("a").data : Str), ((" #b").data : Str)) ≠
      ((("\"a#b").data : Str), ([] : Str))) :=
  ⟨by decide, by decide, by decide, by decide⟩

/-- C8 (amended): if the value contains no comment character, the split
returns the value stripped of all leading and trailing double quotes
with an empty comment.  If a comment character occurs but the
quote-aware pattern does not fire, the value is cut at the first comment
character wherever it stands, the content being the whitespace-trimmed,
quote-stripped prefix and the comment being one space, the delimiter
itself and the untrimmed suffix; the pattern never fires on values
without a double quote, nor on values with exactly one (unterminated)
double quote.  Only when some double-quoted span contains a comment
character does the quote-aware scan run, which drops the delimiter and
trims the comment, and enclosing quotes are stripped repeatedly, not
one pair. -/
theorem c8_comment_split_amended :
    (∀ v : Str, splitAtCommentCh v = none →
      splitValueComment v = (trimCutset ['"'] v, [])) ∧
    (∀ (v before after : Str) (d : Char),
      splitAtCommentCh v = some (before, d, after) →
      quotedCommentMatch v = false →
      splitValueComment v =
        (trimCutset ['"'] (goTrimSpace before), ' ' :: d :: after)) ∧
    (∀ v : Str, '"' ∉ v → quotedCommentMatch v = false) ∧
    (∀ x y : Str, '"' ∉ x → '"' ∉ y →
      quotedCommentMatch (x ++ '"' :: y) = false) ∧
    splitValueComment (("\"foo#bar\" # comment").data) =
      ((("foo#bar").data), (("comment").data)) ∧
    splitValueComment (("\"\"x\"\"").data) = ((("x").data), []) := by
  refine ⟨?_, ?_, quotedCommentMatch_no_quote, quotedCommentMatch_one_quote,
    by decide, by decide⟩
  · intro v hnone
    have hany := (splitAtCommentCh_none_iff v).mp hnone
    unfold splitValueComment
    rw [if_pos (by simp [hany])]
  · intro v before after d hsome hqcm
    obtain ⟨he, hd, -⟩ := splitAtCommentCh_some v before after d hsome
    have hany : v.any (fun c => c = '#' || c = ';') = true := by
      rw [List.any_eq_true]
      refine ⟨d, ?_, by rcases hd with h | h <;> simp [h]⟩
      rw [he]
      exact List.mem_append_right before (List.mem_cons_self d after)
    unfold splitValueComment
    rw [if_neg (by simp [hany]), if_pos (by simp [hqcm]), hsome]

/-- C8 amended, witnessed at a quote-free value with a comment. -/
theorem c8_comment_split_witness :
    splitValueComment (("x #y").data) =
      (trimCutset ['"'] (goTrimSpace (("x ").data)),
        ' ' :: '#' :: (("y").data)) :=
  c8_comment_split_amended.2.1 (("x #y").data) (("x ").data) (("y").data) '#'
    (by decide) (by decide)

theorem fsGet_mem (fs : List (Str × Str)) (q content : Str)
    (h : fsGet fs q = some content) : (q, content) ∈ fs := by
  induction fs with
  | nil => simp [fsGet] at h
  | cons e rest ih =>
    rw [fsGet] at h
    split at h
    · rename_i heq
      cases h
      exact heq ▸ List.mem_cons_self e rest
    · exact List.mem_cons_of_mem e (ih h)

theorem foldl_max_init {α : Type} (f : α → Nat) (l : List α) :
    ∀ m0 : Nat, m0 ≤ l.foldl (fun m e => max m (f e)) m0 := by
  induction l with
  | nil => intro m0; simp
  | cons x rest ih =>
    intro m0
    rw [List.foldl_cons]
    exact le_trans (le_max_left m0 (f x)) (ih (max m0 (f x)))

theorem foldl_max_mem {α : Type} (f : α → Nat) (l : List α) :
    ∀ (m0 : Nat) (e : α), e ∈ l → f e ≤ l.foldl (fun m x => max m (f x)) m0 := by
  induction l with
  | nil => intro m0 e he; simp at he
  | cons x rest ih =>
    intro m0 e he
    rw [List.foldl_cons]
    rcases List.mem_cons.mp he with h | h
    · exact le_trans (h ▸ le_max_right m0 (f x)) (foldl_max_init f rest _)
    · exact ih _ e h

theorem incCount_le_maxInc (w : World) (workdir : Str) (entry : Str × Str)
    (h : entry ∈ w.fs) : incCount w workdir entry ≤ maxInc w workdir :=
  foldl_max_mem (incCount w workdir) w.fs 0 entry h

theorem filter_unvisited_lt (l : List Str) (a : Str) (vis : List Str)
    (ha : a ∈ l) (hv : vis.contains a = false) :
    (l.filter (fun p => ! (a :: vis).contains p)).length <
      (l.filter (fun p => ! vis.contains p)).length := by
  induction l with
  | nil => simp at ha
  | cons x rest ih =>
    by_cases hx : x = a
    · subst hx
      rw [List.filter_cons, List.filter_cons]
      have h1 : (! (x :: vis).contains x) = false := by
        have hmm : (x :: vis).contains x = true :=
          List.elem_iff.mpr (List.mem_cons_self x vis)
        rw [hmm]
        rfl
      have h2 : (! vis.contains x) = true := by rw [hv]; rfl
      rw [h1, h2]
      simp only [Bool.false_eq_true, if_false, ite_false, if_true, ite_true,
        List.length_cons]
      have hmono : (rest.filter (fun p => ! (x :: vis).contains p)).length ≤
          (rest.filter (fun p => ! vis.contains p)).length :=
        (List.monotone_filter_right rest (fun b hb => by
          simp only [Bool.not_eq_true', List.contains_cons, Bool.or_eq_false_iff]
            at hb ⊢
          exact hb.2)).length_le
      omega
    · have ha2 : a ∈ rest := by
        rcases List.mem_cons.mp ha with h | h
        · exact absurd h.symm hx
        · exact h
      rw [List.filter_cons, List.filter_cons]
      have hsame : (! (a :: vis).contains x) = (! vis.contains x) := by
        have : x ≠ a := hx
        simp [List.contains_cons, beq_eq_false_iff_ne, this]
      rw [hsame]
      by_cases hk : (! vis.contains x) = true
      · rw [if_pos hk, if_pos hk]
        simpa using ih ha2
      · rw [if_neg hk, if_neg hk]
        exact ih ha2

theorem unvisited_lt (w : World) (visited : List Str) (head content : Str)
    (hc : fsGet w.fs head = some content)
    (hv : visited.contains head = false) :
    unvisitedCount w (head :: visited) < unvisitedCount w visited := by
  unfold unvisitedCount
  exact filter_unvisited_lt (w.fs.map Prod.fst) head visited
    (List.mem_map_of_mem Prod.fst (fsGet_mem w.fs head content hc)) hv

theorem loadLoop_no_outOfFuel (w : World) (workdir : Str) :
    ∀ (fuel : Nat) (visited queue : List Str) (acc : Config) (log : List Str),
      queue.length + unvisitedCount w visited * (maxInc w workdir + 1) < fuel →
      loadLoop w workdir fuel visited queue acc log ≠ .outOfFuel := by
  intro fuel
  induction fuel with
  | zero => intro visited queue acc log h; omega
  | succ n ih =>
    intro visited queue acc log h
    cases queue with
    | nil => simp [loadLoop]
    | cons head rest =>
      rw [loadLoop]
      split
      · apply ih
        simp only [List.length_cons] at h
        omega
      · rename_i hnv
        have hv : visited.contains head = false := by
          revert hnv; cases visited.contains head <;> simp
        split
        · simp
        rename_i nc heq1
        split
        · simp
        rename_i incs heq2
        simp only [loadOneConfig, Option.map_eq_some'] at heq1
        obtain ⟨content, hcont, rfl⟩ := heq1
        have hU : unvisitedCount w (head :: visited) + 1 ≤
            unvisitedCount w visited :=
          unvisited_lt w visited head content hcont hv
        have hlen : (if incs.2 = true then
            getPathsForNestedConfig w.home incs.1 head else []).length =
            incCount w workdir (head, content) := by
          unfold incCount
          dsimp only
          rw [heq2]
          by_cases hb : incs.2 = true <;> simp [hb]
        have hNew := hlen.trans_le (incCount_le_maxInc w workdir
          (head, content) (fsGet_mem w.fs head content hcont))
        apply ih
        dsimp only
        rw [List.length_append]
        have hmul : (unvisitedCount w (head :: visited) + 1) *
            (maxInc w workdir + 1) ≤
            unvisitedCount w visited * (maxInc w workdir + 1) :=
          Nat.mul_le_mul_right _ hU
        simp only [List.length_cons] at h
        rw [Nat.add_mul, Nat.one_mul] at hmul
        omega

theorem loadLoop_log_ok (w : World) (workdir : Str) :
    ∀ (fuel : Nat) (visited queue : List Str) (acc : Config) (log : List Str)
      (r : Str), log.Nodup → (∀ x ∈ log, x ∈ visited) → r ∈ visited →
      r ∉ log →
      ∀ c log2, loadLoop w workdir fuel visited queue acc log = .ok c log2 →
        log2.Nodup ∧ r ∉ log2 := by
  intro fuel
  induction fuel with
  | zero => intro _ _ _ _ _ _ _ _ _ c log2 h; simp [loadLoop] at h
  | succ n ih =>
    intro visited queue acc log r hnd hsub hr hrl c log2 h
    cases queue with
    | nil =>
      rw [loadLoop] at h
      cases h
      exact ⟨hnd, hrl⟩
    | cons head rest =>
      rw [loadLoop] at h
      split at h
      · exact ih _ _ _ _ r hnd hsub hr hrl c log2 h
      · rename_i hnv
        have hv : head ∉ visited := by
          intro hmem
          apply hnv
          exact List.elem_iff.mpr hmem
        split at h
        · cases h
        rename_i nc heq1
        split at h
        · cases h
        rename_i incs heq2
        refine ih _ _ _ _ r ?_ ?_ ?_ ?_ c log2 h
        · rw [List.nodup_append]
          refine ⟨hnd, List.nodup_singleton head, ?_⟩
          intro x hx
          simp only [List.mem_singleton]
          intro hxh
          exact hv (hxh ▸ hsub x hx)
        · intro x hx
          rcases List.mem_append.mp hx with h1 | h1
          · exact List.mem_cons_of_mem head (hsub x h1)
          · simp only [List.mem_singleton] at h1
            exact h1 ▸ List.mem_cons_self head visited
        · exact List.mem_cons_of_mem head hr
        · intro hmem
          rcases List.mem_append.mp hmem with h1 | h1
          · exact hrl h1
          · simp only [List.mem_singleton] at h1
            exact hv (h1 ▸ hr)

/-- C9: include loading terminates and loads each file at most once.
For every modelled world (file system, HOME, branch detector, glob
matcher) and any fuel of at least the explicit bound, `loadConfigs`
does not run out of fuel (the work-queue loop finishes), and on success
the list of merged include files contains no duplicates and never
contains the root file again, so each distinct resolved path is loaded
and merged at most once even when the include directives form a cycle. -/
theorem c9_include_cycle_termination (w : World) (fn workdir : Str)
    (fuel : Nat) (hf : fuelBound w fn workdir ≤ fuel) :
    loadConfigs w fn workdir fuel ≠ .outOfFuel ∧
    (∀ c log, loadConfigs w fn workdir fuel = .ok c log →
      log.Nodup ∧ fn ∉ log) := by
  unfold loadConfigs
  cases heq1 : loadOneConfig w fn with
  | none => exact ⟨by simp, fun c log h => by simp at h⟩
  | some c0 =>
    dsimp only
    cases heq2 : getEffectiveIncludes w.glob
        { c0 with branch := w.branchOf workdir } workdir with
    | none => exact ⟨by simp, fun c log h => by simp at h⟩
    | some incs =>
      have hqlen : (if incs.2 then
          getPathsForNestedConfig w.home incs.1
            ({ c0 with branch := w.branchOf workdir } : Config).path
        else []) = initialQueue w fn workdir := by
        unfold initialQueue
        rw [heq1]
        dsimp only
        rw [heq2]
      have hU : unvisitedCount w [fn] ≤ w.fs.length := by
        unfold unvisitedCount
        calc ((w.fs.map Prod.fst).filter _).length
            ≤ (w.fs.map Prod.fst).length := List.length_filter_le _ _
          _ = w.fs.length := List.length_map _ _
      have hbound : (if incs.2 then
          getPathsForNestedConfig w.home incs.1
            ({ c0 with branch := w.branchOf workdir } : Config).path
        else []).length +
          unvisitedCount w [fn] * (maxInc w workdir + 1) < fuel := by
        rw [hqlen]
        unfold fuelBound at hf
        have hmul : unvisitedCount w [fn] * (maxInc w workdir + 1) ≤
            w.fs.length * (maxInc w workdir + 1) :=
          Nat.mul_le_mul_right _ hU
        omega
      constructor
      · exact loadLoop_no_outOfFuel w workdir fuel [fn] _ _ [] hbound
      · intro c log h
        exact loadLoop_log_ok w workdir fuel [fn] _ _ [] fn
          List.nodup_nil (by simp) (List.mem_singleton_self fn) (by simp)
          c log h

/-- C9 witnessed on the two-file include cycle of the claim: the root
includes the second file, which includes the root again. -/
theorem c9_include_cycle_witness :
    loadConfigs
      { fs := [(("/r").data, ("[include]\npath = /b\n").data),
               (("/b").data, ("[include]\npath = /r\n").data)],
        home := none, branchOf := fun _ => [], glob := fun _ _ => false }
      (("/r").data) (("/wd").data) 20 ≠ LoadResult.outOfFuel :=
  (c9_include_cycle_termination _ _ _ 20 (by decide)).1

end GitConf
